import Mathlib

/-!
Verification of the typo-corrector repository (src/typo_corrector.py and
src/file_cache.py) against its natural-language specification.

Python strings are modelled as `List Char` (a Python `str` is a sequence of
code points).  Each definition below is a shallow embedding of the function
of the same name in the source; doc comments cite the source location.
-/

namespace Typos

/-- Python strings modelled as lists of characters. -/
abbrev LC := List Char

/-- Predicate `leadsWith p l` is true when `p` is a prefix of `l`
(the prefix test used by the model of Python `str.split`). -/
def leadsWith : LC → LC → Bool
  | [], _ => true
  | _ :: _, [] => false
  | p :: ps, c :: cs => p == c && leadsWith ps cs

/-- Predicate `occursIn n h` is true when `n` occurs as a contiguous substring of `h`;
this models the Python expression `n in h` on strings. -/
def occursIn (n : LC) : LC → Bool
  | [] => n.isEmpty
  | c :: rest => leadsWith n (c :: rest) || occursIn n rest

/-- Fuel-based worker for `pySplit`.  At every position, if the (nonempty)
separator starts there, a piece boundary is emitted and the separator is
skipped; otherwise the head character is prepended to the first piece of the
split of the tail.  Fuel at least the length of the text makes the fuel
irrelevant (`pySplitAux_fuel_irrel`). -/
def pySplitAux (sep : LC) : Nat → LC → List LC
  | 0, l => [l]
  | _ + 1, [] => [[]]
  | fuel + 1, c :: rest =>
    if leadsWith sep (c :: rest) && !sep.isEmpty then
      [] :: pySplitAux sep fuel ((c :: rest).drop sep.length)
    else
      match pySplitAux sep fuel rest with
      | [] => [[c]]
      | p :: ps => (c :: p) :: ps

/-- Model of Python `text.split(sep)` for nonempty `sep`: split `text` at
every non-overlapping occurrence of `sep`, scanning left to right.
(Python raises `ValueError` on an empty separator; the model is only used,
and the theorems only stated, for nonempty separators.) -/
def pySplit (sep l : LC) : List LC := pySplitAux sep l.length l

/-- Source `src/typo_corrector.py:44-55` —
`parts = text.split(delimiter)`; if there is a single part the text is
returned whole; otherwise the first two parts are rejoined around the
delimiter and every later part is prefixed with the delimiter. -/
def individual_split_by (text delimiter : LC) : List LC :=
  match pySplit delimiter text with
  | [] => [text]
  | [_] => [text]
  | p0 :: p1 :: rest => (p0 ++ delimiter ++ p1) :: rest.map (fun p => delimiter ++ p)

/-- Source `src/typo_corrector.py:58-62` — split every named item by one splitter,
keeping the item's name on each resulting piece. -/
def split_by (items : List (LC × LC)) (splitter : LC) : List (LC × LC) :=
  (items.map (fun item => (individual_split_by item.2 splitter).map
    (fun x => (item.1, x)))).flatten

/-- Source `src/typo_corrector.py:65-68` — apply the splitters one at a time, in
order, to the current list of items. -/
def split_all_by (items : List (LC × LC)) (splitters : List LC) : List (LC × LC) :=
  splitters.foldl split_by items

/-- Joining a split with the separator:
`joinSep sep [p]` is `p` and `joinSep sep (p :: ps)` is
`p ++ sep ++ joinSep sep ps`. -/
def joinSep (sep : LC) : List LC → LC
  | [] => []
  | [p] => p
  | p :: ps => p ++ sep ++ joinSep sep ps

theorem leadsWith_iff (p l : LC) : leadsWith p l = true ↔ ∃ t, l = p ++ t := by
  induction p generalizing l with
  | nil => simp [leadsWith]
  | cons a ps ih =>
    cases l with
    | nil => simp [leadsWith]
    | cons c cs =>
      simp only [leadsWith, Bool.and_eq_true, beq_iff_eq, ih, List.cons_append]
      constructor
      · rintro ⟨rfl, t, rfl⟩; exact ⟨t, rfl⟩
      · rintro ⟨t, h⟩
        cases h
        exact ⟨rfl, t, rfl⟩

theorem occursIn_iff (n h : LC) : occursIn n h = true ↔ ∃ a b, h = a ++ n ++ b := by
  induction h with
  | nil =>
    simp only [occursIn, List.isEmpty_iff]
    constructor
    · rintro rfl; exact ⟨[], [], rfl⟩
    · rintro ⟨a, b, hab⟩
      rcases List.append_eq_nil.1 hab.symm with ⟨h1, h2⟩
      exact (List.append_eq_nil.1 h1).2
  | cons c rest ih =>
    simp only [occursIn, Bool.or_eq_true, leadsWith_iff, ih]
    constructor
    · rintro (⟨t, ht⟩ | ⟨a, b, hab⟩)
      · exact ⟨[], t, by simp [ht]⟩
      · exact ⟨c :: a, b, by simp [hab]⟩
    · rintro ⟨a, b, hab⟩
      cases a with
      | nil => exact Or.inl ⟨b, by simpa using hab⟩
      | cons a0 as =>
        simp only [List.cons_append, List.cons.injEq] at hab
        exact Or.inr ⟨as, b, hab.2⟩

theorem pySplitAux_ne_nil (sep : LC) (fuel : Nat) (l : LC) :
    pySplitAux sep fuel l ≠ [] := by
  cases fuel with
  | zero => simp [pySplitAux]
  | succ f =>
    cases l with
    | nil => simp [pySplitAux]
    | cons c rest =>
      simp only [pySplitAux]
      split
      · simp
      · split <;> simp_all

theorem sep_length_pos (sep : LC) (hsep : sep ≠ []) : 1 ≤ sep.length := by
  cases sep with
  | nil => exact absurd rfl hsep
  | cons s ss => simp only [List.length_cons]; omega

theorem pySplitAux_fuel_irrel (sep : LC) (fuel₁ fuel₂ : Nat) (l : LC)
    (h₁ : l.length ≤ fuel₁) (h₂ : l.length ≤ fuel₂) :
    pySplitAux sep fuel₁ l = pySplitAux sep fuel₂ l := by
  induction fuel₁ generalizing l fuel₂ with
  | zero =>
    have : l = [] := List.eq_nil_of_length_eq_zero (Nat.le_zero.1 h₁)
    subst this
    cases fuel₂ <;> simp [pySplitAux]
  | succ f ih =>
    cases l with
    | nil => cases fuel₂ <;> simp [pySplitAux]
    | cons c rest =>
      cases fuel₂ with
      | zero => simp at h₂
      | succ f₂ =>
        simp only [List.length_cons, Nat.succ_le_succ_iff] at h₁ h₂
        simp only [pySplitAux]
        split
        · rename_i hcond
          have hsep : sep ≠ [] := by
            rcases sep with _ | ⟨s, ss⟩ <;> simp_all [List.isEmpty]
          have hpos := sep_length_pos sep hsep
          have hlen : ((c :: rest).drop sep.length).length ≤ f := by
            simp only [List.length_drop, List.length_cons]
            omega
          have hlen₂ : ((c :: rest).drop sep.length).length ≤ f₂ := by
            simp only [List.length_drop, List.length_cons]
            omega
          rw [ih _ _ hlen hlen₂]
        · rw [ih f₂ rest h₁ h₂]

theorem pySplitAux_join (sep : LC) (hsep : sep ≠ []) (fuel : Nat) (l : LC)
    (hfuel : l.length ≤ fuel) :
    joinSep sep (pySplitAux sep fuel l) = l := by
  induction fuel generalizing l with
  | zero =>
    have : l = [] := List.eq_nil_of_length_eq_zero (Nat.le_zero.1 hfuel)
    subst this; simp [pySplitAux, joinSep]
  | succ f ih =>
    cases l with
    | nil => simp [pySplitAux, joinSep]
    | cons c rest =>
      simp only [List.length_cons, Nat.succ_le_succ_iff] at hfuel
      simp only [pySplitAux]
      split
      · rename_i hcond
        simp only [Bool.and_eq_true, Bool.not_eq_true'] at hcond
        obtain ⟨hlead, _⟩ := hcond
        obtain ⟨t, ht⟩ := (leadsWith_iff sep (c :: rest)).1 hlead
        have hslen := sep_length_pos sep hsep
        have hdrop : (c :: rest).drop sep.length = t := by
          rw [ht, List.drop_left]
        have hlen : ((c :: rest).drop sep.length).length ≤ f := by
          simp only [List.length_drop, List.length_cons]; omega
        rw [hdrop] at hlen ⊢
        rcases hres : pySplitAux sep f t with _ | ⟨p, ps⟩
        · exact absurd hres (pySplitAux_ne_nil sep f t)
        · have hj : joinSep sep (p :: ps) = t := by rw [← hres]; exact ih t hlen
          cases ps with
          | nil => simp only [joinSep, List.nil_append] at hj ⊢; rw [hj, ht]
          | cons q qs =>
            simp only [joinSep, List.nil_append] at hj ⊢
            rw [hj, ht]
      · rcases hres : pySplitAux sep f rest with _ | ⟨p, ps⟩
        · exact absurd hres (pySplitAux_ne_nil sep f rest)
        · have hj : joinSep sep (p :: ps) = rest := by rw [← hres]; exact ih rest hfuel
          cases ps with
          | nil => simp only [joinSep] at hj ⊢; rw [hj]
          | cons q qs =>
            simp only [joinSep] at hj ⊢
            rw [List.cons_append, List.cons_append] at *
            rw [← hj]

theorem pySplit_join (sep : LC) (hsep : sep ≠ []) (l : LC) :
    joinSep sep (pySplit sep l) = l :=
  pySplitAux_join sep hsep l.length l (Nat.le_refl _)

theorem joinSep_eq_append_flatten (sep : LC) (ps : List LC) (p : LC) :
    p ++ (ps.map (fun q => sep ++ q)).flatten = joinSep sep (p :: ps) := by
  induction ps generalizing p with
  | nil => simp [joinSep]
  | cons q qs ih =>
    simp only [List.map_cons, List.flatten_cons, joinSep]
    rw [← ih q, ← List.append_assoc, ← List.append_assoc]
    simp [List.append_assoc]

theorem individual_split_by_flatten (text delimiter : LC) (hd : delimiter ≠ []) :
    (individual_split_by text delimiter).flatten = text := by
  have hjoin := pySplit_join delimiter hd text
  rcases hres : pySplit delimiter text with _ | ⟨p0, _ | ⟨p1, rest⟩⟩
  · exact absurd hres (pySplitAux_ne_nil delimiter text.length text)
  · rw [hres] at hjoin
    simp only [joinSep] at hjoin
    simp [individual_split_by, hres]
  · rw [hres] at hjoin
    simp only [individual_split_by, hres, List.flatten_cons]
    rw [List.append_assoc, List.append_assoc]
    rw [joinSep_eq_append_flatten delimiter rest p1]
    simpa [joinSep, List.append_assoc] using hjoin

theorem split_by_flatten (items : List (LC × LC)) (splitter : LC) (hs : splitter ≠ []) :
    ((split_by items splitter).map Prod.snd).flatten = (items.map Prod.snd).flatten := by
  induction items with
  | nil => simp [split_by]
  | cons it its ih =>
    simp only [split_by, List.map_cons, List.flatten_cons, List.map_append,
      List.flatten_append] at *
    rw [ih]
    congr 1
    rw [List.map_map]
    have : (Prod.snd ∘ fun x => (it.1, x)) = (id : LC → LC) := rfl
    rw [this, List.map_id]
    exact individual_split_by_flatten it.2 splitter hs

theorem split_all_by_flatten (items : List (LC × LC)) (splitters : List LC)
    (hs : ∀ m ∈ splitters, m ≠ []) :
    ((split_all_by items splitters).map Prod.snd).flatten = (items.map Prod.snd).flatten := by
  induction splitters generalizing items with
  | nil => simp [split_all_by]
  | cons s ss ih =>
    simp only [split_all_by, List.foldl_cons] at *
    rw [ih (split_by items s) (fun m hm => hs m (List.mem_cons_of_mem s hm))]
    exact split_by_flatten items s (hs s (List.mem_cons_self s ss))

/-- Claim C1: Segmentation reversibility: for every input text and every list of
delimiter markers (each a nonempty string — Python `str.split` rejects an
empty separator), concatenating in order the texts of all sections produced
by `split_all_by` applied to the whole text, with no separator inserted,
reproduces the original input text exactly.  This includes the empty marker
list and markers that do not occur in the text. -/
theorem segmentation_reversible (name text : LC) (markers : List LC)
    (hm : ∀ m ∈ markers, m ≠ []) :
    ((split_all_by [(name, text)] markers).map Prod.snd).flatten = text := by
  rw [split_all_by_flatten [(name, text)] markers hm]
  simp

/-- Witness for C1 at the concrete marker list of `src/typo_corrector.py:156`
and the spec's example text. -/
theorem segmentation_reversible_witness :
    ((split_all_by [("section".toList, "A\n# B\n# C".toList)]
        ["\n# ".toList, "\n## ".toList, "\n### ".toList]).map Prod.snd).flatten
      = "A\n# B\n# C".toList :=
  segmentation_reversible "section".toList "A\n# B\n# C".toList
    ["\n# ".toList, "\n## ".toList, "\n### ".toList] (by decide)

theorem pySplitAux_length_ge_two (sep : LC) (hsep : sep ≠ []) (fuel : Nat) (l : LC)
    (hfuel : l.length ≤ fuel) (hocc : occursIn sep l = true) :
    2 ≤ (pySplitAux sep fuel l).length := by
  induction fuel generalizing l with
  | zero =>
    have : l = [] := List.eq_nil_of_length_eq_zero (Nat.le_zero.1 hfuel)
    subst this
    simp only [occursIn, List.isEmpty_iff] at hocc
    exact absurd hocc hsep
  | succ f ih =>
    cases l with
    | nil =>
      simp only [occursIn, List.isEmpty_iff] at hocc
      exact absurd hocc hsep
    | cons c rest =>
      simp only [List.length_cons, Nat.succ_le_succ_iff] at hfuel
      simp only [pySplitAux]
      split
      · have := pySplitAux_ne_nil sep f ((c :: rest).drop sep.length)
        rcases hres : pySplitAux sep f ((c :: rest).drop sep.length) with _ | ⟨p, ps⟩
        · exact absurd hres this
        · simp only [List.length_cons]
          omega
      · rename_i hcond
        have hne : sep.isEmpty = false := by
          cases sep with
          | nil => exact absurd rfl hsep
          | cons s ss => rfl
        rw [hne] at hcond
        simp only [Bool.not_false, Bool.and_true, Bool.not_eq_true] at hcond
        simp only [occursIn, hcond, Bool.false_or] at hocc
        have h2 := ih rest hfuel hocc
        rcases hres : pySplitAux sep f rest with _ | ⟨p, ps⟩
        · exact absurd hres (pySplitAux_ne_nil sep f rest)
        · rw [hres] at h2
          simpa using h2

theorem pySplit_length_ge_two (sep : LC) (hsep : sep ≠ []) (l : LC)
    (hocc : occursIn sep l = true) : 2 ≤ (pySplit sep l).length :=
  pySplitAux_length_ge_two sep hsep l.length l (Nat.le_refl _) hocc

theorem occursIn_of_leadsWith (n h : LC) (hl : leadsWith n h = true) :
    occursIn n h = true := by
  obtain ⟨t, rfl⟩ := (leadsWith_iff n h).1 hl
  exact (occursIn_iff n (n ++ t)).2 ⟨[], t, by simp⟩

theorem pySplitAux_not_occurs (sep : LC) (fuel : Nat) (l : LC)
    (hfuel : l.length ≤ fuel) (hocc : occursIn sep l = false) :
    pySplitAux sep fuel l = [l] := by
  induction fuel generalizing l with
  | zero =>
    have : l = [] := List.eq_nil_of_length_eq_zero (Nat.le_zero.1 hfuel)
    subst this; rfl
  | succ f ih =>
    cases l with
    | nil => rfl
    | cons c rest =>
      simp only [List.length_cons, Nat.succ_le_succ_iff] at hfuel
      simp only [occursIn, Bool.or_eq_false_iff] at hocc
      simp only [pySplitAux, hocc.1, Bool.false_and, Bool.false_eq_true, if_false]
      rw [ih rest hfuel hocc.2]

theorem pySplit_not_occurs (sep l : LC) (hocc : occursIn sep l = false) :
    pySplit sep l = [l] :=
  pySplitAux_not_occurs sep l.length l (Nat.le_refl _) hocc

theorem pySplitAux_first_occurrence (sep : LC) (hsep : sep ≠ []) (pre rest : LC)
    (hfirst : occursIn sep ((pre ++ sep).dropLast) = false) :
    ∀ fuel, (pre ++ sep ++ rest).length ≤ fuel →
      pySplitAux sep fuel (pre ++ sep ++ rest) = pre :: pySplit sep rest := by
  induction pre with
  | nil =>
    intro fuel hfuel
    cases sep with
    | nil => exact absurd rfl hsep
    | cons s ss =>
    simp only [List.nil_append, List.cons_append, List.length_cons,
      List.length_append] at hfuel ⊢
    cases fuel with
    | zero => omega
    | succ f =>
      have hlead : leadsWith (s :: ss) (s :: (ss ++ rest)) = true :=
        (leadsWith_iff _ _).2 ⟨rest, by simp⟩
      simp only [pySplitAux, hlead, List.isEmpty_cons, Bool.not_false, Bool.and_self,
        if_true]
      have hdrop : (s :: (ss ++ rest)).drop (s :: ss).length = rest := by
        have : s :: (ss ++ rest) = (s :: ss) ++ rest := by simp
        rw [this, List.drop_left]
      rw [hdrop]
      congr 1
      exact pySplitAux_fuel_irrel (s :: ss) f rest.length rest (by omega) (Nat.le_refl _)
  | cons c pre' ih =>
    intro fuel hfuel
    have hpsne : pre' ++ sep ≠ [] := by
      intro h
      exact hsep (List.append_eq_nil.1 h).2
    have hdl : ((c :: pre') ++ sep).dropLast = c :: (pre' ++ sep).dropLast := by
      rw [List.cons_append, List.dropLast_cons_of_ne_nil hpsne]
    rw [hdl] at hfirst
    simp only [occursIn, Bool.or_eq_false_iff] at hfirst
    obtain ⟨hnl, hrest⟩ := hfirst
    -- the separator cannot start at the head position
    have hnotlead : leadsWith sep ((c :: pre') ++ sep ++ rest) = false := by
      by_contra hcon
      rw [Bool.not_eq_false] at hcon
      obtain ⟨t, ht⟩ := (leadsWith_iff _ _).1 hcon
      -- sep is then a prefix of the dropLast of (c :: pre') ++ sep
      have hslen := sep_length_pos sep hsep
      have hw : ((c :: pre') ++ sep ++ rest).take sep.length = sep := by
        rw [ht, List.take_left]
      have htk : ((c :: pre') ++ sep).take sep.length = sep := by
        rw [← @List.take_append_of_le_length Char ((c :: pre') ++ sep) rest sep.length
          (by simp [List.length_append, List.length_cons]; omega)]
        exact hw
      have hdlt : (c :: (pre' ++ sep).dropLast).take sep.length = sep := by
        rw [← hdl, List.dropLast_eq_take, List.take_take]
        have hmin : min sep.length (((c :: pre') ++ sep).length - 1) = sep.length := by
          simp only [List.length_append, List.length_cons]
          omega
        rw [hmin, htk]
      have hlead₂ : leadsWith sep (c :: (pre' ++ sep).dropLast) = true := by
        apply (leadsWith_iff _ _).2
        refine ⟨(c :: (pre' ++ sep).dropLast).drop sep.length, ?_⟩
        conv_lhs => rw [← List.take_append_drop sep.length (c :: (pre' ++ sep).dropLast)]
        rw [hdlt]
      have hcontr := occursIn_of_leadsWith _ _ hlead₂
      simp only [occursIn, hnl, Bool.false_or] at hcontr
      rw [hcontr] at hrest
      exact Bool.noConfusion hrest
    have hshape : (c :: pre') ++ sep ++ rest = c :: (pre' ++ sep ++ rest) := by simp
    rw [hshape] at hnotlead ⊢
    simp only [List.length_append, List.length_cons] at hfuel
    cases fuel with
    | zero => omega
    | succ f =>
      simp only [pySplitAux, hnotlead, Bool.false_and, Bool.false_eq_true, if_false]
      rw [ih hrest f (by simp only [List.length_append]; omega)]

theorem pySplit_first_occurrence (sep : LC) (hsep : sep ≠ []) (pre rest : LC)
    (hfirst : occursIn sep ((pre ++ sep).dropLast) = false) :
    pySplit sep (pre ++ sep ++ rest) = pre :: pySplit sep rest :=
  pySplitAux_first_occurrence sep hsep pre rest hfirst _ (Nat.le_refl _)

/-- Claim C2, counterexample: The claim asserts that for input `"A\n# B\n# C"`
and marker `"\n# "` the sections are `["A", "\n# B", "\n# C"]`; the code
instead merges the text before the first marker with the piece after it
(`result = [parts[0] + delimiter + parts[1]]` at `src/typo_corrector.py:50`),
producing `["A\n# B", "\n# C"]`. -/
theorem individual_split_by_example_counter :
    individual_split_by "A\n# B\n# C".toList "\n# ".toList ≠
      ["A".toList, "\n# B".toList, "\n# C".toList] := by
  decide

/-- Claim C2, amended: For every segment `s` and nonempty marker `m` that
occurs in `s`, `individual_split_by` yields pieces such that the first piece
*contains* the marker (the text before the first occurrence is merged with
the piece after it, so the first piece is not marker-free), and every
subsequent piece is prefixed with `m`; for input `"A\n# B\n# C"` and marker
`"\n# "` the resulting sections are `["A\n# B", "\n# C"]`. -/
theorem individual_split_marker_structure (s m : LC) (hm : m ≠ [])
    (hocc : occursIn m s = true) :
    occursIn m ((individual_split_by s m).headD []) = true
    ∧ (∀ p ∈ (individual_split_by s m).drop 1, leadsWith m p = true)
    ∧ individual_split_by "A\n# B\n# C".toList "\n# ".toList
        = ["A\n# B".toList, "\n# C".toList] := by
  have h2 := pySplit_length_ge_two m hm s hocc
  rcases hres : pySplit m s with _ | ⟨p0, _ | ⟨p1, rest⟩⟩
  · rw [hres] at h2; simp at h2
  · rw [hres] at h2; simp at h2
  · refine ⟨?_, ?_, by decide⟩
    · simp only [individual_split_by, hres, List.headD_cons]
      exact (occursIn_iff m (p0 ++ m ++ p1)).2 ⟨p0, p1, rfl⟩
    · intro p hp
      simp only [individual_split_by, hres, List.drop_succ_cons, List.drop_zero,
        List.mem_map] at hp
      obtain ⟨q, _, rfl⟩ := hp
      exact (leadsWith_iff m (m ++ q)).2 ⟨q, rfl⟩

/-- Witness for the amended C2 at the spec's own example input. -/
theorem individual_split_marker_structure_witness :
    individual_split_by "A\n# B\n# C".toList "\n# ".toList
      = ["A\n# B".toList, "\n# C".toList] :=
  (individual_split_marker_structure "A\n# B\n# C".toList "\n# ".toList
    (by decide) (by decide)).2.2

/-! Section: Retrying executor (`fix_section`, `src/typo_corrector.py:71-133`) -/

/-- Python whitespace characters recognized by `str.strip` / `str.rstrip`
(ASCII subset; the texts handled by the program are ASCII-whitespace
delimited). -/
def isPySpace (c : Char) : Bool :=
  c == ' ' || c == '\t' || c == '\n' || c == '\r' || c == '\x0b' || c == '\x0c'

/-- Model of Python `str.strip()`. -/
def pyStrip (l : LC) : LC :=
  ((l.dropWhile isPySpace).reverse.dropWhile isPySpace).reverse

/-- Model of Python `str.rstrip()`. -/
def pyRstrip (l : LC) : LC :=
  (l.reverse.dropWhile isPySpace).reverse

/-- The part of an API response that `fix_section` inspects:
`response.stop_reason` and `response.content[0].text`. -/
structure ApiResponse where
  stop_reason : LC
  content_text : LC

/-- What one attempt of the external call does: succeed with a response,
time out (`asyncio.TimeoutError`), or raise an exception whose string form
is `msg`. -/
inductive Outcome where
  | success (resp : ApiResponse)
  | timeout
  | failure (msg : LC)

/-- Source `src/typo_corrector.py:105-113` — the retryable-error classifier:
`str(e).lower()` matched against rate/overloaded/timeout/timed out/dropped
connection and the status codes 429, 500, 502, 503, 504, 529. -/
def is_retryable (msg : LC) : Bool :=
  let s := msg.map Char.toLower
  occursIn "rate".toList s || occursIn "overloaded".toList s ||
  occursIn "timeout".toList s || occursIn "timed out".toList s ||
  occursIn "dropped connection".toList s ||
  (["429", "500", "502", "503", "504", "529"].map String.toList).any
    (fun code => occursIn code s)

/-- An attempt outcome is retried exactly when it is a timeout or a failure
the classifier accepts. -/
def retryableOut : Outcome → Bool
  | .success _ => false
  | .timeout => true
  | .failure msg => is_retryable msg

def sentinelStart : LC := "===REWRITE START===".toList

def sentinelEnd : LC := "===REWRITE END===".toList

def maxTokensReason : LC := "max_tokens".toList

/-- Result of one `fix_section` run: the returned triple, an
`AssertionError` (line 125-127), a re-raised non-retryable exception
(line 119), or the `RuntimeError` after retry exhaustion (line 121). -/
inductive FixResult where
  | ok (name parsed stripped : LC)
  | assertFailed (msg : LC)
  | fatal (msg : LC)
  | retriesExhausted (name : LC)

/-- Source `src/typo_corrector.py:123-133` — response validation after a
successful call: assert the response was not truncated at `max_tokens`,
assert both sentinels occur in the text, then return the text between
`out.split(START)[1]` and `.split(END)[0]`, stripped, together with the
stripped section text. -/
def fix_section_finish (name text : LC) (resp : ApiResponse) : FixResult :=
  let out := resp.content_text
  if resp.stop_reason = maxTokensReason then
    .assertFailed ("Max tokens hit for section: ".toList ++ name ++ ", ".toList
      ++ text.take 100)
  else if occursIn sentinelStart out = false then
    .assertFailed ("Missing REWRITE START in output for ".toList ++ name)
  else if occursIn sentinelEnd out = false then
    .assertFailed ("Missing REWRITE END in output for ".toList ++ name)
  else
    .ok name
      (pyStrip ((pySplit sentinelEnd ((pySplit sentinelStart out).getD 1 [])).headD []))
      (pyStrip text)

/-- Result of the retry loop together with the observable sleep sequence
and the number of attempts issued. -/
structure RunOut where
  result : FixResult
  sleeps : List ℚ
  attempts : Nat

def max_retries : Nat := 10

def initial_delay : ℚ := 1 / 2

def max_delay : ℚ := 10

/-- Source `src/typo_corrector.py:91-121` — the retry loop.  `i` is the next
attempt index (the `i`-th attempt behaves as `f i`), `r` the number of
attempts still allowed, `delay` the current backoff value.  A retryable
outcome sleeps `min delay max_delay`, doubles the delay and retries; a
non-retryable exception is re-raised; running out of attempts raises the
max-retries `RuntimeError` naming the section. -/
def loopAux (name text : LC) (f : Nat → Outcome) :
    Nat → Nat → ℚ → List ℚ → Nat → RunOut
  | _, 0, _, sleeps, attempts => ⟨.retriesExhausted name, sleeps, attempts⟩
  | i, r + 1, delay, sleeps, attempts =>
    match f i with
    | .success resp => ⟨fix_section_finish name text resp, sleeps, attempts + 1⟩
    | .timeout =>
      loopAux name text f (i + 1) r (delay * 2)
        (sleeps ++ [min delay max_delay]) (attempts + 1)
    | .failure msg =>
      if is_retryable msg then
        loopAux name text f (i + 1) r (delay * 2)
          (sleeps ++ [min delay max_delay]) (attempts + 1)
      else ⟨.fatal msg, sleeps, attempts + 1⟩

/-- One full executor run for a section, from the first attempt with the
initial 0.5 delay and a budget of 10 attempts. -/
def fix_section_run (name text : LC) (f : Nat → Outcome) : RunOut :=
  loopAux name text f 0 max_retries initial_delay [] 0

theorem loopAux_zero (name text : LC) (f : Nat → Outcome) (i : Nat) (delay : ℚ)
    (sleeps : List ℚ) (a : Nat) :
    loopAux name text f i 0 delay sleeps a = ⟨.retriesExhausted name, sleeps, a⟩ :=
  rfl

theorem loopAux_succ_success (name text : LC) (f : Nat → Outcome) (i r : Nat)
    (delay : ℚ) (sleeps : List ℚ) (a : Nat) (resp : ApiResponse)
    (h : f i = .success resp) :
    loopAux name text f i (r + 1) delay sleeps a =
      ⟨fix_section_finish name text resp, sleeps, a + 1⟩ := by
  simp [loopAux, h]

theorem loopAux_succ_timeout (name text : LC) (f : Nat → Outcome) (i r : Nat)
    (delay : ℚ) (sleeps : List ℚ) (a : Nat) (h : f i = .timeout) :
    loopAux name text f i (r + 1) delay sleeps a =
      loopAux name text f (i + 1) r (delay * 2)
        (sleeps ++ [min delay max_delay]) (a + 1) := by
  simp [loopAux, h]

theorem loopAux_succ_retry (name text : LC) (f : Nat → Outcome) (i r : Nat)
    (delay : ℚ) (sleeps : List ℚ) (a : Nat) (msg : LC)
    (h : f i = .failure msg) (hr : is_retryable msg = true) :
    loopAux name text f i (r + 1) delay sleeps a =
      loopAux name text f (i + 1) r (delay * 2)
        (sleeps ++ [min delay max_delay]) (a + 1) := by
  simp [loopAux, h, hr]

theorem loopAux_succ_fatal (name text : LC) (f : Nat → Outcome) (i r : Nat)
    (delay : ℚ) (sleeps : List ℚ) (a : Nat) (msg : LC)
    (h : f i = .failure msg) (hr : is_retryable msg = false) :
    loopAux name text f i (r + 1) delay sleeps a = ⟨.fatal msg, sleeps, a + 1⟩ := by
  simp [loopAux, h, hr]

theorem loopAux_attempts_le (name text : LC) (f : Nat → Outcome) :
    ∀ (r i : Nat) (delay : ℚ) (sleeps : List ℚ) (a : Nat),
      (loopAux name text f i r delay sleeps a).attempts ≤ a + r := by
  intro r
  induction r with
  | zero => intro i delay sleeps a; simp [loopAux_zero]
  | succ r ih =>
    intro i delay sleeps a
    cases hfi : f i with
    | success resp =>
      rw [loopAux_succ_success name text f i r delay sleeps a resp hfi]
      simp only []
      omega
    | timeout =>
      rw [loopAux_succ_timeout name text f i r delay sleeps a hfi]
      have := ih (i + 1) (delay * 2) (sleeps ++ [min delay max_delay]) (a + 1)
      omega
    | failure msg =>
      cases hr : is_retryable msg with
      | true =>
        rw [loopAux_succ_retry name text f i r delay sleeps a msg hfi hr]
        have := ih (i + 1) (delay * 2) (sleeps ++ [min delay max_delay]) (a + 1)
        omega
      | false =>
        rw [loopAux_succ_fatal name text f i r delay sleeps a msg hfi hr]
        simp only []
        omega

theorem loopAux_sleeps_le (name text : LC) (f : Nat → Outcome) :
    ∀ (r i : Nat) (delay : ℚ) (sleeps : List ℚ) (a : Nat),
      sleeps.length ≤ (loopAux name text f i r delay sleeps a).sleeps.length := by
  intro r
  induction r with
  | zero => intro i delay sleeps a; simp [loopAux_zero]
  | succ r ih =>
    intro i delay sleeps a
    cases hfi : f i with
    | success resp =>
      rw [loopAux_succ_success name text f i r delay sleeps a resp hfi]
    | timeout =>
      rw [loopAux_succ_timeout name text f i r delay sleeps a hfi]
      have := ih (i + 1) (delay * 2) (sleeps ++ [min delay max_delay]) (a + 1)
      simp only [List.length_append, List.length_cons, List.length_nil] at this
      omega
    | failure msg =>
      cases hr : is_retryable msg with
      | true =>
        rw [loopAux_succ_retry name text f i r delay sleeps a msg hfi hr]
        have := ih (i + 1) (delay * 2) (sleeps ++ [min delay max_delay]) (a + 1)
        simp only [List.length_append, List.length_cons, List.length_nil] at this
        omega
      | false =>
        rw [loopAux_succ_fatal name text f i r delay sleeps a msg hfi hr]

theorem loopAux_progress (name text : LC) (f : Nat → Outcome) :
    ∀ (k i r : Nat) (delay : ℚ) (sleeps : List ℚ) (attempts : Nat),
      k ≤ r → (∀ j, j < k → retryableOut (f (i + j)) = true) →
      loopAux name text f i r delay sleeps attempts =
        loopAux name text f (i + k) (r - k) (delay * 2 ^ k)
          (sleeps ++ (List.range k).map (fun j => min (delay * 2 ^ j) max_delay))
          (attempts + k) := by
  intro k
  induction k with
  | zero => intro i r delay sleeps attempts _ _; simp
  | succ k ih =>
    intro i r delay sleeps attempts hkr hret
    cases r with
    | zero => omega
    | succ r =>
      have h0 : retryableOut (f i) = true := by
        have := hret 0 (Nat.succ_pos k)
        simpa using this
      have hstep : loopAux name text f i (r + 1) delay sleeps attempts =
          loopAux name text f (i + 1) r (delay * 2)
            (sleeps ++ [min delay max_delay]) (attempts + 1) := by
        cases hfi : f i with
        | success resp => rw [hfi] at h0; simp [retryableOut] at h0
        | timeout => exact loopAux_succ_timeout name text f i r delay sleeps attempts hfi
        | failure msg =>
          rw [hfi] at h0
          simp only [retryableOut] at h0
          exact loopAux_succ_retry name text f i r delay sleeps attempts msg hfi h0
      rw [hstep]
      rw [ih (i + 1) r (delay * 2) (sleeps ++ [min delay max_delay]) (attempts + 1)
        (by omega)
        (fun j hj => by
          have := hret (j + 1) (by omega)
          simpa [Nat.add_assoc, Nat.add_comm 1 j] using this)]
      congr 1
      · omega
      · omega
      · rw [pow_succ]; ring
      · rw [List.range_succ_eq_map]
        simp only [List.map_cons, List.map_map, pow_zero, mul_one, List.append_assoc,
          List.singleton_append]
        congr 2
        apply List.map_congr_left
        intro j _
        simp only [Function.comp_apply]
        rw [pow_succ]
        ring_nf
      · omega

/-- Claim C3: Backoff growth and exhaustion: for every run of `fix_section`
whose first 10 attempts all fail retryably, the sleep delays are exactly
`0.5, 1, 2, 4, 8` and then capped at `10` (each sleep being
`min currentDelay 10` with the delay starting at `0.5` and doubling after
each sleep), and the run ends with the retries-exhausted error naming the
section; moreover no run ever issues more than 10 attempts. -/
theorem backoff_and_exhaustion (name text : LC) (f : Nat → Outcome)
    (hall : ∀ i, i < 10 → retryableOut (f i) = true) :
    fix_section_run name text f =
      ⟨.retriesExhausted name,
        [1/2, 1, 2, 4, 8, 10, 10, 10, 10, 10], 10⟩
    ∧ ∀ (g : Nat → Outcome), (fix_section_run name text g).attempts ≤ 10 := by
  constructor
  · have hp := loopAux_progress name text f 10 0 10 initial_delay [] 0
      (Nat.le_refl _) (fun j hj => by simpa using hall j hj)
    have hmap : (List.range 10).map (fun j => min (initial_delay * 2 ^ j) max_delay)
        = [1/2, 1, 2, 4, 8, 10, 10, 10, 10, 10] := by
      norm_num [List.range_succ, initial_delay, max_delay, min_def]
    simp only [fix_section_run, max_retries]
    rw [hp]
    simp only [Nat.sub_self, loopAux_zero, List.nil_append, Nat.zero_add, hmap]
  · intro g
    have := loopAux_attempts_le name text g max_retries 0 initial_delay [] 0
    simpa [fix_section_run, max_retries] using this

/-- Witness for C3: ten consecutive `overloaded` failures. -/
theorem backoff_and_exhaustion_witness :
    fix_section_run "section".toList "text".toList
        (fun _ => .failure "overloaded".toList)
      = ⟨.retriesExhausted "section".toList,
          [1/2, 1, 2, 4, 8, 10, 10, 10, 10, 10], 10⟩ :=
  (backoff_and_exhaustion "section".toList "text".toList
    (fun _ => .failure "overloaded".toList) (by decide)).1

/-- Claim C4: Within one executor attempt, a failure is retried (another
sleep is appended, so the run records at least `k + 1` sleeps) if and only
if it is a timeout or an error matching the retryable classifier
(`is_retryable`); any other error propagates immediately: the run ends with
exactly the sleeps accumulated so far and no further attempt. -/
theorem retry_classification (name text : LC) (f : Nat → Outcome) (k : Nat)
    (hk : k < 10) (hpre : ∀ i, i < k → retryableOut (f i) = true) :
    (retryableOut (f k) = true →
      k + 1 ≤ (fix_section_run name text f).sleeps.length)
    ∧ (∀ msg, f k = .failure msg → is_retryable msg = false →
        fix_section_run name text f =
          ⟨.fatal msg,
            (List.range k).map (fun j => min (initial_delay * 2 ^ j) max_delay),
            k + 1⟩) := by
  have hp := loopAux_progress name text f k 0 10 initial_delay [] 0
    (by omega) (fun j hj => by simpa using hpre j hj)
  have hrun : fix_section_run name text f =
      loopAux name text f k (10 - k) (initial_delay * 2 ^ k)
        ((List.range k).map (fun j => min (initial_delay * 2 ^ j) max_delay)) k := by
    simpa [fix_section_run, max_retries] using hp
  obtain ⟨m, hm⟩ : ∃ m, 10 - k = m + 1 := ⟨10 - k - 1, by omega⟩
  constructor
  · intro hret
    rw [hrun, hm]
    have hlen : ((List.range k).map
        (fun j => min (initial_delay * 2 ^ j) max_delay)).length = k := by
      simp
    cases hfk : f k with
    | success resp => rw [hfk] at hret; simp [retryableOut] at hret
    | timeout =>
      rw [loopAux_succ_timeout name text f k m _ _ _ hfk]
      have := loopAux_sleeps_le name text f m (k + 1) (initial_delay * 2 ^ k * 2)
        ((List.range k).map (fun j => min (initial_delay * 2 ^ j) max_delay)
          ++ [min (initial_delay * 2 ^ k) max_delay]) (k + 1)
      simp only [List.length_append, List.length_cons, List.length_nil, hlen] at this
      omega
    | failure msg =>
      rw [hfk] at hret
      simp only [retryableOut] at hret
      rw [loopAux_succ_retry name text f k m _ _ _ msg hfk hret]
      have := loopAux_sleeps_le name text f m (k + 1) (initial_delay * 2 ^ k * 2)
        ((List.range k).map (fun j => min (initial_delay * 2 ^ j) max_delay)
          ++ [min (initial_delay * 2 ^ k) max_delay]) (k + 1)
      simp only [List.length_append, List.length_cons, List.length_nil, hlen] at this
      omega
  · intro msg hfk hnr
    rw [hrun, hm]
    exact loopAux_succ_fatal name text f k m _ _ _ msg hfk hnr

/-- Witness for C4: attempt 0 times out (retried); attempt 1 raises a
non-retryable error, which propagates immediately with a single recorded
sleep. -/
theorem retry_classification_witness :
    fix_section_run "section".toList "text".toList
        (fun i => if i = 0 then .timeout else .failure "bad request".toList)
      = ⟨.fatal "bad request".toList,
          (List.range 1).map (fun j => min (initial_delay * 2 ^ j) max_delay), 2⟩ :=
  (retry_classification "section".toList "text".toList
      (fun i => if i = 0 then .timeout else .failure "bad request".toList) 1
      (by decide) (by decide)).2
    "bad request".toList rfl (by decide)

/-- Recognizes the `AssertionError` results of `fix_section_finish`. -/
def isAssertFailed : FixResult → Bool
  | .assertFailed _ => true
  | _ => false

/-- Claim C5: Response validation: a successful response that was truncated
at the output-size limit or lacks either sentinel makes the run fail with
an assertion error (and since validation happens after the retry loop has
been exited, no retry occurs: a first-attempt success yields the validation
result with no sleeps); otherwise the returned rewritten text is exactly
the substring strictly between the two sentinels (the hypotheses pin down
the first occurrence of each sentinel), trimmed of surrounding
whitespace. -/
theorem response_validation (name text : LC) (resp : ApiResponse) :
    ((resp.stop_reason = maxTokensReason
        ∨ occursIn sentinelStart resp.content_text = false
        ∨ occursIn sentinelEnd resp.content_text = false) →
      isAssertFailed (fix_section_finish name text resp) = true)
    ∧ (∀ pre mid post,
        resp.content_text = pre ++ sentinelStart ++ (mid ++ sentinelEnd ++ post) →
        occursIn sentinelStart ((pre ++ sentinelStart).dropLast) = false →
        occursIn sentinelStart (mid ++ sentinelEnd ++ post) = false →
        occursIn sentinelEnd ((mid ++ sentinelEnd).dropLast) = false →
        resp.stop_reason ≠ maxTokensReason →
        fix_section_finish name text resp = .ok name (pyStrip mid) (pyStrip text))
    ∧ (∀ (f : Nat → Outcome), f 0 = .success resp →
        fix_section_run name text f = ⟨fix_section_finish name text resp, [], 1⟩) := by
  refine ⟨?_, ?_, ?_⟩
  · intro hbad
    by_cases hmt : resp.stop_reason = maxTokensReason
    · simp [fix_section_finish, hmt, isAssertFailed]
    · rcases hbad with hbad | hnoS | hnoE
      · exact absurd hbad hmt
      · simp [fix_section_finish, hmt, hnoS, isAssertFailed]
      · by_cases hnoS₂ : occursIn sentinelStart resp.content_text = false
        · simp [fix_section_finish, hmt, hnoS₂, isAssertFailed]
        · simp [fix_section_finish, hmt, hnoS₂, hnoE, isAssertFailed]
  · intro pre mid post hdecomp hfS hnS hfE hmt
    have hS : occursIn sentinelStart resp.content_text = true := by
      rw [hdecomp]
      exact (occursIn_iff _ _).2 ⟨pre, mid ++ sentinelEnd ++ post, rfl⟩
    have hE : occursIn sentinelEnd resp.content_text = true := by
      rw [hdecomp]
      refine (occursIn_iff _ _).2 ⟨pre ++ sentinelStart ++ mid, post, ?_⟩
      simp [List.append_assoc]
    have hsplit1 := pySplit_first_occurrence sentinelStart (by decide) pre
      (mid ++ sentinelEnd ++ post) hfS
    have hsplit1b := pySplit_not_occurs sentinelStart (mid ++ sentinelEnd ++ post) hnS
    have hsplit2 := pySplit_first_occurrence sentinelEnd (by decide) mid post hfE
    simp only [fix_section_finish, hmt, hS, hE, Bool.true_eq_false, if_false,
      ite_false, ite_true]
    rw [hdecomp, hsplit1, hsplit1b]
    simp only [List.getD_cons_succ, List.getD_cons_zero]
    rw [hsplit2]
    simp
  · intro f hf0
    show loopAux name text f 0 max_retries initial_delay [] 0 =
      ⟨fix_section_finish name text resp, [], 1⟩
    have h10 : max_retries = 9 + 1 := rfl
    rw [h10]
    exact loopAux_succ_success name text f 0 9 initial_delay [] 0 resp hf0

/-- Witness for C5: a concrete well-formed response whose payload between
the sentinels is extracted and stripped. -/
theorem response_validation_witness :
    fix_section_finish "section".toList "body".toList
        ⟨"end_turn".toList,
          "noise ===REWRITE START=== Fixed text. ===REWRITE END=== tail".toList⟩
      = .ok "section".toList (pyStrip " Fixed text. ".toList)
          (pyStrip "body".toList) :=
  (response_validation "section".toList "body".toList
      ⟨"end_turn".toList,
        "noise ===REWRITE START=== Fixed text. ===REWRITE END=== tail".toList⟩).2.1
    "noise ".toList " Fixed text. ".toList " tail".toList
    (by decide) (by decide) (by decide) (by decide) (by decide)

/-! Section: Reassembly (`main`, `src/typo_corrector.py:152-175`) -/

/-- The markdown header markers of `src/typo_corrector.py:156`. -/
def markersList : List LC :=
  ["\n# ".toList, "\n## ".toList, "\n### ".toList, "\n#### ".toList,
   "\n##### ".toList, "\n###### ".toList]

/-- Source `src/typo_corrector.py:166-171` — concatenate every section's rewritten
text followed by two newlines, then strip trailing whitespace and append
exactly one newline. -/
def reassemble (outs : List LC) : LC :=
  pyRstrip (outs.foldl (fun acc o => acc ++ o ++ "\n\n".toList) []) ++ ['\n']

/-- Source `src/typo_corrector.py:173-175` — the pipeline reports "No change"
exactly when the reassembled output equals the original text. -/
def mainNoChange (outs : List LC) (all_text : LC) : Bool :=
  reassemble outs == all_text

theorem foldl_append_eq (outs : List LC) (init : LC) :
    outs.foldl (fun acc o => acc ++ o ++ "\n\n".toList) init
      = init ++ (outs.map (fun o => o ++ "\n\n".toList)).flatten := by
  induction outs generalizing init with
  | nil => simp
  | cons o os ih =>
    simp only [List.foldl_cons, List.map_cons, List.flatten_cons]
    rw [ih]
    simp [List.append_assoc]

/-- Claim C6, counterexample: For input `"A"` (one section, no markers
occurring) with the section's rewritten text equal to its original text
(which is already trimmed), the reassembled output is `"A\n"`, which is not
byte-identical to the input, and the pipeline does not report
"no change". -/
theorem noop_detection_counterexample :
    (split_all_by [("section".toList, "A".toList)] markersList).map Prod.snd
        = ["A".toList]
    ∧ pyStrip "A".toList = "A".toList
    ∧ reassemble ["A".toList] = "A\n".toList
    ∧ mainNoChange ["A".toList] "A".toList = false := by
  decide

/-- Claim C6, amended: If every section's rewritten text equals its original
text after trimming, the reassembled output is the canonical form of the
input (trimmed sections joined with the two-newline separator, trailing
whitespace stripped, exactly one trailing newline); when the input is
already in this canonical form the output is byte-identical to it and the
pipeline reports "no change" (without that proviso the output can differ
from the input, e.g. input `"A"` yields `"A\n"`). -/
theorem noop_detection_canonical (name all_text : LC) (outs : List LC)
    (houts : outs = (split_all_by [(name, all_text)] markersList).map
        (fun s => pyStrip s.2))
    (hcanon : pyRstrip (((split_all_by [(name, all_text)] markersList).map
        (fun s => pyStrip s.2 ++ "\n\n".toList)).flatten) ++ ['\n'] = all_text) :
    reassemble outs = all_text ∧ mainNoChange outs all_text = true := by
  have h1 : reassemble outs = all_text := by
    rw [reassemble, foldl_append_eq, List.nil_append, houts, List.map_map]
    exact hcanon
  refine ⟨h1, ?_⟩
  rw [mainNoChange, h1]
  simp

/-- Witness for the amended C6: a canonical-form markdown input
round-trips and reports "no change". -/
theorem noop_detection_canonical_witness :
    reassemble ["X\n\n# Y".toList, "# Z".toList] = "X\n\n# Y\n\n# Z\n".toList
    ∧ mainNoChange ["X\n\n# Y".toList, "# Z".toList] "X\n\n# Y\n\n# Z\n".toList
        = true :=
  noop_detection_canonical "section".toList "X\n\n# Y\n\n# Z\n".toList
    ["X\n\n# Y".toList, "# Z".toList] (by decide) (by decide)

/-! Section: File cache (`src/file_cache.py`)

Python values passed to the cache are JSON-serializable; they are modelled
by `JVal`.  Python `None` is modelled as `JVal.null` (consistently with
`json.dumps(None) = "null"` and `json.loads("null") = None`), which is what
makes the C10 phenomenon expressible: `get`'s default is `None`, i.e.
`JVal.null`. -/

inductive JVal where
  | null
  | bool (b : Bool)
  | num (n : Int)
  | str (s : LC)
  | arr (xs : List JVal)
  | obj (ps : List (LC × JVal))

/-- JSON string escaping as `json.dumps` produces it for the characters
appearing in this program's data (quote, backslash, newline, tab, carriage
return; other characters are emitted literally). -/
def escChar (c : Char) : LC :=
  if c = '"' then ['\\', '"']
  else if c = '\\' then ['\\', '\\']
  else if c = '\n' then ['\\', 'n']
  else if c = '\t' then ['\\', 't']
  else if c = '\r' then ['\\', 'r']
  else [c]

def renderString (s : LC) : LC :=
  '"' :: ((s.map escChar).flatten ++ ['"'])

def renderInt (n : Int) : LC :=
  if n < 0 then '-' :: Nat.toDigits 10 n.natAbs else Nat.toDigits 10 n.toNat

/-- The key order used by `json.dumps(..., sort_keys=True)`: lexicographic
on the key strings. -/
def keyLE (a b : LC × JVal) : Prop := a.1 ≤ b.1

instance : DecidableRel keyLE := fun a b => inferInstanceAs (Decidable (a.1 ≤ b.1))

instance : IsTotal (LC × JVal) keyLE := ⟨fun a b => le_total a.1 b.1⟩

instance : IsTrans (LC × JVal) keyLE := ⟨fun _ _ _ h1 h2 => le_trans h1 h2⟩

/-- Sorting an object's fields by key (the effect of `sort_keys=True`). -/
def sortPairs (ps : List (LC × JVal)) : List (LC × JVal) :=
  List.insertionSort keyLE ps

/-- Source `src/file_cache.py:34-49` — `json.dumps(value, sort_keys=det)`,
rendered with the default separators `", "` and `": "`.  `fuel` bounds the
nesting depth that is rendered (every theorem below holds for every fuel).
A nonempty array or object is rendered by rendering its head and splicing
in the rendering of its tail (dropping the tail rendering's opening
bracket); on the deterministic path the fields are sorted by key at each
object node. -/
def renderF (det : Bool) : Nat → JVal → LC
  | _, .null => "null".toList
  | _, .bool true => "true".toList
  | _, .bool false => "false".toList
  | _, .num n => renderInt n
  | _, .str s => renderString s
  | 0, .arr _ => []
  | _ + 1, .arr [] => "[]".toList
  | fuel + 1, .arr (v :: vs) =>
    match vs with
    | [] => '[' :: (renderF det fuel v ++ [']'])
    | _ :: _ =>
      '[' :: (renderF det fuel v ++ ", ".toList ++ (renderF det fuel (.arr vs)).drop 1)
  | 0, .obj _ => []
  | fuel + 1, .obj ps =>
    match (if det then sortPairs ps else ps) with
    | [] => ['\x7b', '\x7d']
    | (k, v) :: rest =>
      match rest with
      | [] => '\x7b' :: (renderString k ++ ": ".toList ++ renderF det fuel v ++ ['\x7d'])
      | _ :: _ =>
        '\x7b' :: (renderString k ++ ": ".toList ++ renderF det fuel v ++ ", ".toList
          ++ (renderF det fuel (.obj rest)).drop 1)

/-- Function `serialize(value, deterministic=...)` of `src/file_cache.py:34-49`. -/
def serialize (fuel : Nat) (value : JVal) (deterministic : Bool) : LC :=
  renderF deterministic fuel value

/-- Source `src/file_cache.py:94-98` — `_key_to_filename`: a digest of the
deterministic serialization of the key.  The digest function (SHA-256 in
the source) is an arbitrary function parameter `hash`: every theorem holds
for any deterministic digest. -/
def key_to_filename (hash : LC → LC) (fuel : Nat) (key : JVal) : LC :=
  hash (serialize fuel key true)

/-! Subsection: Model of `json.loads` (`deserialize`, `src/file_cache.py:52-65`)

A fuel-bounded recursive-descent parser for the JSON fragment produced by
`renderF` (null, booleans, integers, strings with the escapes above,
arrays, objects).  The tail of a nonempty array or object is parsed by
re-prepending the opening bracket to the remaining input, which keeps the
recursion structural in the fuel. -/

def isJsonWs (c : Char) : Bool :=
  c == ' ' || c == '\t' || c == '\n' || c == '\r'

def skipWs (l : LC) : LC := l.dropWhile isJsonWs

def unescape (c : Char) : Option Char :=
  if c = '"' then some '"'
  else if c = '\\' then some '\\'
  else if c = '/' then some '/'
  else if c = 'n' then some '\n'
  else if c = 't' then some '\t'
  else if c = 'r' then some '\r'
  else none

def parseStringBody : LC → Option (LC × LC)
  | [] => none
  | '"' :: rest => some ([], rest)
  | '\\' :: rest =>
    match rest with
    | [] => none
    | e :: rest' =>
      match unescape e with
      | none => none
      | some c =>
        match parseStringBody rest' with
        | none => none
        | some (s, r) => some (c :: s, r)
  | c :: rest =>
    match parseStringBody rest with
    | none => none
    | some (s, r) => some (c :: s, r)

def digitsToNat (acc : Nat) : LC → Nat × LC
  | [] => (acc, [])
  | c :: rest =>
    if c.isDigit then digitsToNat (acc * 10 + (c.toNat - 48)) rest else (acc, c :: rest)

def parseNumber : LC → Option (JVal × LC)
  | [] => none
  | '-' :: rest =>
    match rest with
    | [] => none
    | c :: _ =>
      if c.isDigit then
        match digitsToNat 0 rest with
        | (n, r) => some (.num (-(n : Int)), r)
      else none
  | c :: rest =>
    if c.isDigit then
      match digitsToNat 0 (c :: rest) with
      | (n, r) => some (.num (n : Int), r)
    else none

def parseF : Nat → LC → Option (JVal × LC)
  | 0, _ => none
  | fuel + 1, l =>
    match skipWs l with
    | 'n' :: 'u' :: 'l' :: 'l' :: rest => some (.null, rest)
    | 't' :: 'r' :: 'u' :: 'e' :: rest => some (.bool true, rest)
    | 'f' :: 'a' :: 'l' :: 's' :: 'e' :: rest => some (.bool false, rest)
    | '"' :: rest =>
      match parseStringBody rest with
      | none => none
      | some (s, r) => some (.str s, r)
    | '[' :: rest =>
      match skipWs rest with
      | ']' :: r => some (.arr [], r)
      | rest' =>
        match parseF fuel rest' with
        | none => none
        | some (v, r1) =>
          match skipWs r1 with
          | ',' :: r2 =>
            match parseF fuel ('[' :: r2) with
            | some (.arr xs, r3) => some (.arr (v :: xs), r3)
            | _ => none
          | ']' :: r2 => some (.arr [v], r2)
          | _ => none
    | '\x7b' :: rest =>
      match skipWs rest with
      | '\x7d' :: r => some (.obj [], r)
      | '"' :: krest =>
        match parseStringBody krest with
        | none => none
        | some (k, r1) =>
          match skipWs r1 with
          | ':' :: r2 =>
            match parseF fuel r2 with
            | none => none
            | some (v, r3) =>
              match skipWs r3 with
              | ',' :: r4 =>
                match parseF fuel ('\x7b' :: r4) with
                | some (.obj ps, r5) => some (.obj ((k, v) :: ps), r5)
                | _ => none
              | '\x7d' :: r4 => some (.obj [(k, v)], r4)
              | _ => none
          | _ => none
      | _ => none
    | l' => parseNumber l'

/-- Function `deserialize` (`src/file_cache.py:52-65`): `json.loads`, which rejects
trailing non-whitespace input. -/
def deserialize (data : LC) : Option JVal :=
  match parseF (2 * data.length + 2) data with
  | some (v, rest) => if skipWs rest = [] then some v else none
  | none => none

/-! Subsection: The cache store

The cache directory is a flat mapping from file names to file contents,
modelled as an association list where an entry earlier in the list shadows
later ones (writing a file overwrites previous contents). -/

def storeLookup : List (LC × LC) → LC → Option LC
  | [], _ => none
  | (k, v) :: rest, key => if k = key then some v else storeLookup rest key

/-- Result of `FileCache.get`: either a value (possibly the default) or the
`json.JSONDecodeError` raised on unreadable contents. -/
inductive GetResult where
  | ok (v : JVal)
  | raiseDecodeError

/-- Source `src/file_cache.py:100-116` — `get`: if the key's file does not exist
return `default`; otherwise read and deserialize it. -/
def cache_get (hash : LC → LC) (fuel : Nat) (store : List (LC × LC)) (key : JVal)
    (default : JVal) : GetResult :=
  match storeLookup store (key_to_filename hash fuel key) with
  | none => .ok default
  | some data =>
    match deserialize data with
    | some v => .ok v
    | none => .raiseDecodeError

/-- Source `src/file_cache.py:118-128` — `set`: write `serialize(value)` (the
non-deterministic serialization) to the key's file. -/
def cache_set (hash : LC → LC) (fuel : Nat) (store : List (LC × LC))
    (key value : JVal) : List (LC × LC) :=
  (key_to_filename hash fuel key, serialize fuel value false) :: store

/-- Source `src/file_cache.py:146-148` — `exists`. -/
def cache_existsKey (hash : LC → LC) (fuel : Nat) (store : List (LC × LC))
    (key : JVal) : Bool :=
  (storeLookup store (key_to_filename hash fuel key)).isSome

/-- What the cache check at `src/typo_corrector.py:81-83` decides. -/
inductive CacheGate where
  | useCached (v : JVal)
  | callApi
  | raiseError

/-- Source `src/typo_corrector.py:81-83` — `cached = cache.get(kwargs)` (default
`None`); if `cached is not None` the cached value is returned, otherwise
the external call is made. -/
def fix_section_cache_check (hash : LC → LC) (fuel : Nat)
    (store : List (LC × LC)) (kwargs : JVal) : CacheGate :=
  match cache_get hash fuel store kwargs .null with
  | .ok .null => .callApi
  | .ok v => .useCached v
  | .raiseDecodeError => .raiseError

/-- Strict key order, used to show sorted field lists are unique. -/
def keyLT (a b : LC × JVal) : Prop := a.1 < b.1

instance : IsAntisymm (LC × JVal) keyLT :=
  ⟨fun _ _ h1 h2 => absurd h1 (lt_asymm h2)⟩

theorem sortPairs_eq_of_perm (l1 l2 : List (LC × JVal)) (hp : l1.Perm l2)
    (hnd : (l1.map Prod.fst).Nodup) : sortPairs l1 = sortPairs l2 := by
  have hp' : (sortPairs l1).Perm (sortPairs l2) :=
    ((List.perm_insertionSort keyLE l1).trans hp).trans
      (List.perm_insertionSort keyLE l2).symm
  have hnd1 : ((sortPairs l1).map Prod.fst).Nodup :=
    (((List.perm_insertionSort keyLE l1).map Prod.fst).nodup_iff).2 hnd
  have hnd2 : ((sortPairs l2).map Prod.fst).Nodup := by
    refine (((List.perm_insertionSort keyLE l2).map Prod.fst).nodup_iff).2 ?_
    exact ((hp.map Prod.fst).nodup_iff).1 hnd
  have hstrict : ∀ (l : List (LC × JVal)), l.Sorted keyLE →
      (l.map Prod.fst).Nodup → l.Sorted keyLT := by
    intro l hle hnodup
    have hne : l.Pairwise (fun a b => a.1 ≠ b.1) := (List.pairwise_map).1 hnodup
    exact (hle.and hne).imp (fun h => lt_of_le_of_ne h.1 h.2)
  have hs1 : (sortPairs l1).Sorted keyLT :=
    hstrict _ (List.sorted_insertionSort keyLE l1) hnd1
  have hs2 : (sortPairs l2).Sorted keyLT :=
    hstrict _ (List.sorted_insertionSort keyLE l2) hnd2
  exact List.eq_of_perm_of_sorted hp' hs1 hs2

/-- Claim C7: Cache-key determinism: two requests that are equal as mappings
(the same fields with the same values, in any order, with no duplicate
field names) produce the same cache file name, for every digest function
`hash` and every rendering depth. -/
theorem cache_key_deterministic (hash : LC → LC) (fuel : Nat)
    (ps1 ps2 : List (LC × JVal)) (hperm : ps1.Perm ps2)
    (hnodup : (ps1.map Prod.fst).Nodup) :
    key_to_filename hash fuel (.obj ps1) = key_to_filename hash fuel (.obj ps2) := by
  unfold key_to_filename serialize
  congr 1
  have hsort := sortPairs_eq_of_perm ps1 ps2 hperm hnodup
  cases fuel with
  | zero => rfl
  | succ f => simp only [renderF, if_true, hsort]

/-- Witness for C7: two field orderings of the same request produce the
same key. -/
theorem cache_key_deterministic_witness :
    key_to_filename id 3 (.obj [("model".toList, .str "m".toList),
        ("temperature".toList, .num 0)])
      = key_to_filename id 3 (.obj [("temperature".toList, .num 0),
        ("model".toList, .str "m".toList)]) :=
  cache_key_deterministic id 3 _ _ (List.Perm.swap _ _ _) (by decide)

/-- Claim C8: For every key with no entry in the cache, `get(key, default)`
returns the given default and never raises. -/
theorem cache_get_missing (hash : LC → LC) (fuel : Nat)
    (store : List (LC × LC)) (key default : JVal)
    (hmiss : storeLookup store (key_to_filename hash fuel key) = none) :
    cache_get hash fuel store key default = .ok default := by
  simp [cache_get, hmiss]

/-- Witness for C8: the empty cache. -/
theorem cache_get_missing_witness :
    cache_get id 1 [] .null (.str "dflt".toList) = .ok (.str "dflt".toList) :=
  cache_get_missing id 1 [] .null (.str "dflt".toList) rfl

/-- Claim C9: For every JSON-representable key and every value that
round-trips through the JSON serialization, `set` followed by `get`
returns the stored value. -/
theorem cache_set_get_roundtrip (hash : LC → LC) (fuel : Nat)
    (store : List (LC × LC)) (key v default : JVal)
    (hround : deserialize (serialize fuel v false) = some v) :
    cache_get hash fuel (cache_set hash fuel store key v) key default = .ok v := by
  simp [cache_get, cache_set, storeLookup, hround]

/-- Witness for C9 with a concrete request and value. -/
theorem cache_set_get_roundtrip_witness :
    cache_get id 20 (cache_set id 20 []
        (.obj [("model".toList, .str "m".toList)]) (.str "hello".toList))
      (.obj [("model".toList, .str "m".toList)]) .null
      = .ok (.str "hello".toList) :=
  cache_set_get_roundtrip id 20 [] (.obj [("model".toList, .str "m".toList)])
    (.str "hello".toList) .null rfl

/-- Claim C10: After `set(key, None)` the key exists, `get(key, default)`
returns `None` (the stored value, not the default) for every default, and
the cache check in `fix_section` therefore treats the entry as absent and
proceeds to the external call. -/
theorem cached_none_indistinguishable (hash : LC → LC) (fuel : Nat)
    (store : List (LC × LC)) (key default : JVal) :
    cache_existsKey hash fuel (cache_set hash fuel store key .null) key = true
    ∧ cache_get hash fuel (cache_set hash fuel store key .null) key default
        = .ok .null
    ∧ fix_section_cache_check hash fuel (cache_set hash fuel store key .null) key
        = .callApi := by
  have hlook : storeLookup (cache_set hash fuel store key .null)
      (key_to_filename hash fuel key) = some (serialize fuel .null false) := by
    simp [cache_set, storeLookup]
  have hdeser : deserialize (serialize fuel JVal.null false) = some JVal.null := by
    cases fuel <;> rfl
  refine ⟨?_, ?_, ?_⟩
  · simp [cache_existsKey, hlook]
  · simp [cache_get, hlook, hdeser]
  · simp [fix_section_cache_check, cache_get, hlook, hdeser]

end Typos
